import Mathlib

/-!
Shallow embedding of the RAJA deferred work-queue engine:
the work storage variants and runners of
`include/RAJA/pattern/detail/WorkGroup.hpp`, the work-group graph node of
`include/RAJA/pattern/graph/WorkGroupNode.hpp`, and the dependency-graph
executors of `include/RAJA/policy/loop/graph/DAG.hpp` and
`include/RAJA/policy/openmp/graph/DAG.hpp`.

A stored work record (`WorkStruct`) is identified by the value held in its
payload; byte pointers into the backing arena are modeled as byte offsets
from `m_array_begin`, so a pointer difference such as
`m_array_end - m_array_begin` becomes a difference of offsets.
-/

/-- A type-erased work record. Records are identified by the payload value
placed in `WorkStruct::obj` by `WorkStruct::construct`; `move_destroy`
transfers this value unchanged, and invoking the record appends it to a log
(the closures of spec section 8 append their index to a shared log). -/
abbrev WorkRec := Nat

/-- Events performed on a storage's backing arena, in program order:
an allocation of the new arena, one `WorkStruct::move_destroy` per relocated
record (recorded with the source and destination byte offsets), and the
deallocation of the old arena. -/
inductive ArenaEvent where
  | alloc (bytes : Nat)
  | move (src dst : Nat)
  | free
deriving Repr, DecidableEq

/-- The source offsets of the `move_destroy` events of a trace, in order. -/
def moveSrcs (evs : List ArenaEvent) : List Nat :=
  evs.filterMap (fun e => match e with
    | ArenaEvent.move s _ => some s
    | _ => none)

/-- Whether an arena event is a record relocation. -/
def isMove (e : ArenaEvent) : Bool :=
  match e with
  | ArenaEvent.move _ _ => true
  | _ => false

/-- Reading the record constructed at byte offset `off` of an arena
(`reinterpret_cast<value_type*>(m_array_begin + off)`); the arena is the
finite map from byte offsets to the records currently constructed there. -/
def lookupOff (arena : List (Nat × WorkRec)) (off : Nat) : Option WorkRec :=
  (arena.find? (fun p => p.fst == off)).map Prod.snd

/-!
## WorkStorage<constant_stride_array_of_objects>
`WorkGroup.hpp` lines 840-1142. Pointers `m_array_begin/end/cap` are kept as
the byte counts `m_used = m_array_end - m_array_begin` and
`m_cap = m_array_cap - m_array_begin`; `arena` maps the byte offset of each
constructed record to its payload value.
-/

structure CSStorage where
  m_stride : Nat
  m_used : Nat
  m_cap : Nat
  arena : List (Nat × WorkRec)
deriving Repr, DecidableEq

/-- A freshly constructed constant-stride storage: null arena pointers and
`m_stride = 1` ("can't be 0 because size divides stride"). -/
def csFresh : CSStorage :=
  { m_stride := 1, m_used := 0, m_cap := 0, arena := [] }

/-- `storage_size()`: `m_array_end - m_array_begin`. -/
def cs_storage_size (s : CSStorage) : Nat := s.m_used

/-- `storage_capacity()`: `m_array_cap - m_array_begin`. -/
def cs_storage_capacity (s : CSStorage) : Nat := s.m_cap

/-- `storage_unused()`: `m_array_cap - m_array_end`. -/
def cs_storage_unused (s : CSStorage) : Nat := s.m_cap - s.m_used

/-- `size()`: `storage_size() / m_stride`. -/
def cs_size (s : CSStorage) : Nat := cs_storage_size s / s.m_stride

/-- `array_reserve(loop_storage_size, new_stride)`: if the requested byte
count exceeds the capacity or the stride must grow, allocate a new arena,
relocate record `i` from offset `i * m_stride` to offset `i * new_stride`
via `move_destroy` for `i = 0 .. size()-1`, deallocate the old arena, and
install the new stride, end and capacity. Returns the arena event trace. -/
def cs_array_reserve (s : CSStorage) (loop_storage_size new_stride : Nat) :
    CSStorage × List ArenaEvent :=
  if loop_storage_size > cs_storage_capacity s ∨ new_stride > s.m_stride then
    let n := cs_size s
    let moves := (List.range n).map
      (fun i => ArenaEvent.move (i * s.m_stride) (i * new_stride))
    let arena' := (List.range n).filterMap
      (fun i => (lookupOff s.arena (i * s.m_stride)).map
        (fun r => (i * new_stride, r)))
    ({ m_stride := new_stride,
       m_used := n * new_stride,
       m_cap := loop_storage_size,
       arena := arena' },
     ArenaEvent.alloc loop_storage_size :: moves ++ [ArenaEvent.free])
  else (s, [])

/-- `create_value<holder>`: grow capacity at the current stride when only
byte capacity is exhausted (`value_size > storage_unused() &&
value_size <= m_stride`), or re-layout at stride `value_size` when the
holder exceeds the stride (`value_size > m_stride`); then construct the
record at `m_array_end` and advance `m_array_end` by `m_stride`. -/
def cs_create_value (s : CSStorage) (value_size : Nat) (r : WorkRec) :
    CSStorage × List ArenaEvent :=
  let grown :=
    if value_size > cs_storage_unused s ∧ value_size ≤ s.m_stride then
      cs_array_reserve s
        (max (cs_storage_size s + value_size) (2 * cs_storage_capacity s))
        s.m_stride
    else if value_size > s.m_stride then
      cs_array_reserve s ((cs_size s + 1) * value_size) value_size
    else (s, [])
  let s1 := grown.1
  ({ s1 with
     arena := s1.arena ++ [(s1.m_used, r)],
     m_used := s1.m_used + s1.m_stride },
   grown.2)

/-- `emplace<holder>` just forwards to `create_value`. -/
def cs_emplace (s : CSStorage) (value_size : Nat) (r : WorkRec) :
    CSStorage × List ArenaEvent :=
  cs_create_value s value_size r

/-- `reserve(num_loops, loop_storage_size)`: `num_loops` is unused;
reserves the byte arena at the current stride. -/
def cs_reserve (s : CSStorage) (loop_storage_size : Nat) :
    CSStorage × List ArenaEvent :=
  cs_array_reserve s loop_storage_size s.m_stride

/-- Iteration from `begin()` to `end()`: the iterator starts at
`m_array_begin` and advances by `m_stride`, dereferencing each position, so
it reads the records at offsets `0, m_stride, ...` up to `size()` reads. -/
def cs_readAll (s : CSStorage) : List (Option WorkRec) :=
  (List.range (cs_size s)).map (fun i => lookupOff s.arena (i * s.m_stride))

/-- The public mutating operations of the constant-stride storage. -/
inductive CSOp where
  | emplaceOp (value_size : Nat) (r : WorkRec)
  | reserveOp (loop_storage_size : Nat)
deriving Repr, DecidableEq

def cs_step (s : CSStorage) : CSOp → CSStorage × List ArenaEvent
  | CSOp.emplaceOp v r => cs_emplace s v r
  | CSOp.reserveOp lss => cs_reserve s lss

def cs_run (s : CSStorage) (ops : List CSOp) : CSStorage :=
  ops.foldl (fun st op => (cs_step st op).1) s

/-- Per-operation arena event traces of a run. -/
def cs_opTraces (s : CSStorage) (ops : List CSOp) : List (List ArenaEvent) :=
  (ops.foldl (fun (acc : CSStorage × List (List ArenaEvent)) op =>
    let r := cs_step acc.1 op
    (r.1, acc.2 ++ [r.2])) (s, [])).2

/-- The stride after each operation of a run. -/
def cs_strideTrace (s : CSStorage) (ops : List CSOp) : List Nat :=
  (ops.foldl (fun (acc : CSStorage × List Nat) op =>
    let s' := (cs_step acc.1 op).1
    (s', acc.2 ++ [s'.m_stride])) (s, [])).2

/-- Move construction (`WorkStorage(WorkStorage&& o)`): the new object takes
all fields of `o`; `o`'s arena pointers are nulled while its stride is
deliberately not reset ("do not reset stride, leave it for reuse").
Returns (new object, moved-from source). -/
def cs_move_construct (o : CSStorage) : CSStorage × CSStorage :=
  ({ m_stride := o.m_stride,
     m_used := o.m_used,
     m_cap := o.m_cap,
     arena := o.arena },
   { o with m_used := 0, m_cap := 0, arena := [] })

/-- Move assignment (`operator=(WorkStorage&& o)`): the target's fields are
overwritten with `o`'s and `o`'s arena pointers are nulled, again leaving
`o.m_stride` untouched; the target's previous fields are discarded.
Returns (assigned target, moved-from source). -/
def cs_move_assign (_t o : CSStorage) : CSStorage × CSStorage :=
  ({ m_stride := o.m_stride,
     m_used := o.m_used,
     m_cap := o.m_cap,
     arena := o.arena },
   { o with m_used := 0, m_cap := 0, arena := [] })

/-- The spec's constant-stride scenario: enqueue holders of sizes 8, 64, 8
from a fresh storage. -/
def c2ops : List CSOp :=
  [CSOp.emplaceOp 8 0, CSOp.emplaceOp 64 1, CSOp.emplaceOp 8 2]

/-- C1: the claim "storage_size() never exceeds the current byte capacity"
is violated by the constant-stride variant: from a fresh storage, after
emplace(size 64); reserve(loop_storage_size 136); emplace(size 8);
emplace(size 8), `create_value` advances `m_array_end` by the stride (64)
having only compared `value_size` (8) with `storage_unused()` (8), so
storage_size() reaches 192 while the capacity is 136 and the last record is
constructed past the allocation. -/
theorem c1_const_stride_storage_size_exceeds_capacity :
    cs_storage_size (cs_run csFresh
      [CSOp.emplaceOp 64 0, CSOp.reserveOp 136,
       CSOp.emplaceOp 8 1, CSOp.emplaceOp 8 2]) = 192 ∧
    cs_storage_capacity (cs_run csFresh
      [CSOp.emplaceOp 64 0, CSOp.reserveOp 136,
       CSOp.emplaceOp 8 1, CSOp.emplaceOp 8 2]) = 136 ∧
    cs_storage_capacity (cs_run csFresh
      [CSOp.emplaceOp 64 0, CSOp.reserveOp 136,
       CSOp.emplaceOp 8 1, CSOp.emplaceOp 8 2]) <
    cs_storage_size (cs_run csFresh
      [CSOp.emplaceOp 64 0, CSOp.reserveOp 136,
       CSOp.emplaceOp 8 1, CSOp.emplaceOp 8 2]) := by
  decide

/-- C2 counterexample: in the [8, 64, 8] scenario the claim says inserting
the trailing 8-byte item causes no relocation, but the third emplace
exhausts the byte capacity (128 used of 128) and triggers a capacity-growth
reallocation that relocates both stored records (`move_destroy` from
offsets 0 and 64). -/
theorem c2_counterexample :
    ¬ moveSrcs ((cs_opTraces csFresh c2ops).getD 2 []) = [] := by
  decide

/-- C2 (amended): enqueuing sizes [8, 64, 8] from a fresh constant-stride
storage gives exactly one stride-growth relocation that moves existing
records, at the 64-byte item (stride 8 to 64, one record moved); the
initial 8-byte item grows the stride from 1 to 8 with no records yet to
move; the trailing 8-byte item triggers a capacity-growth reallocation at
the unchanged stride 64 that relocates both records; the final stride
equals 64. -/
theorem c2_stride_growth_relocations :
    cs_opTraces csFresh c2ops =
      [[ArenaEvent.alloc 8, ArenaEvent.free],
       [ArenaEvent.alloc 128, ArenaEvent.move 0 0, ArenaEvent.free],
       [ArenaEvent.alloc 256, ArenaEvent.move 0 0, ArenaEvent.move 64 64,
        ArenaEvent.free]] ∧
    cs_strideTrace csFresh c2ops = [8, 64, 64] ∧
    (cs_run csFresh c2ops).m_stride = 64 := by
  decide

/-- C10: moving from a constant-stride storage, by move construction or
move assignment, leaves the source with size() = 0, storage_size() = 0, no
owned arena (capacity 0, no constructed records) and its stride preserved
for reuse, while the destination takes over the stride and all records. -/
theorem c10_move_from_const_stride_storage (o t : CSStorage) :
    (cs_size (cs_move_construct o).2 = 0 ∧
     cs_storage_size (cs_move_construct o).2 = 0 ∧
     cs_storage_capacity (cs_move_construct o).2 = 0 ∧
     (cs_move_construct o).2.arena = [] ∧
     (cs_move_construct o).2.m_stride = o.m_stride ∧
     (cs_move_construct o).1 = o) ∧
    (cs_size (cs_move_assign t o).2 = 0 ∧
     cs_storage_size (cs_move_assign t o).2 = 0 ∧
     cs_storage_capacity (cs_move_assign t o).2 = 0 ∧
     (cs_move_assign t o).2.arena = [] ∧
     (cs_move_assign t o).2.m_stride = o.m_stride ∧
     (cs_move_assign t o).1 = o) := by
  refine ⟨⟨?_, rfl, rfl, rfl, rfl, rfl⟩, ⟨?_, rfl, rfl, rfl, rfl, rfl⟩⟩ <;>
    simp [cs_size, cs_storage_size, cs_move_construct, cs_move_assign]

/-!
## SimpleVector
`WorkGroup.hpp` lines 42-170. The buffer contents are the element list
`m_data`, the capacity `m_cap` counts elements
(`m_cap - m_begin`), and the identity of the current heap allocation is
tracked as `m_buf` (0 meaning the null buffer) with `next_buf` the
allocator's next fresh block id, so that a reallocation is observable. -/

structure SimpleVector where
  m_data : List Nat
  m_cap : Nat
  m_buf : Nat
  next_buf : Nat
deriving Repr, DecidableEq

/-- A default-constructed `SimpleVector`: all pointers null. -/
def svFresh : SimpleVector :=
  { m_data := [], m_cap := 0, m_buf := 0, next_buf := 1 }

/-- `size()`: `m_end - m_begin`. -/
def sv_size (s : SimpleVector) : Nat := s.m_data.length

/-- `reserve(count)`: if `count > size()`, allocate a new buffer of `count`
elements, move-construct the `size()` live elements into it in order,
destroy the originals, deallocate the old buffer and retarget the pointers
(so the new capacity is exactly `count`); otherwise do nothing. -/
def sv_reserve (s : SimpleVector) (count : Nat) : SimpleVector :=
  if count > sv_size s then
    { m_data := s.m_data, m_cap := count,
      m_buf := s.next_buf, next_buf := s.next_buf + 1 }
  else s

/-- `emplace_back`: when full (`m_end == m_cap`), reserve 1 element if the
buffer is null (`m_begin == m_cap`) and `2*size()` otherwise; then construct
the new element at `m_end++`. -/
def sv_emplace_back (s : SimpleVector) (x : Nat) : SimpleVector :=
  let s1 :=
    if sv_size s = s.m_cap then
      sv_reserve s (if s.m_cap = 0 then 1 else 2 * sv_size s)
    else s
  { s1 with m_data := s1.m_data ++ [x] }

/-- `pop_back()`: move the last element out, destroy its storage slot. -/
def sv_pop_back (s : SimpleVector) : SimpleVector × Option Nat :=
  ({ s with m_data := s.m_data.dropLast }, s.m_data.getLast?)

/-- `clear()`: destroy all elements, deallocate, null the pointers. -/
def sv_clear (s : SimpleVector) : SimpleVector :=
  { s with m_data := [], m_cap := 0, m_buf := 0 }

/-- C3 counterexample: `reserve` ignores the current capacity. After
`reserve(4)` on a fresh vector the capacity is 4 and the size 0; the claim
says `reserve(2)` must leave the buffer's storage unchanged, but the code
compares `count` with `size()`, reallocates, and shrinks the capacity to 2
with a fresh buffer. -/
theorem c3_counterexample :
    ¬ sv_reserve (sv_reserve svFresh 4) 2 = sv_reserve svFresh 4 := by
  decide

/-- C3 (amended): `reserve(n)` leaves the buffer untouched exactly when
`n ≤ size()`; whenever `n > size()` it reallocates — even if the current
capacity already holds n elements — to capacity exactly n, carrying the
live elements over in order into a fresh buffer and releasing the old
one. -/
theorem c3_reserve_reallocates_iff_count_gt_size (s : SimpleVector) (n : Nat) :
    (n ≤ sv_size s → sv_reserve s n = s) ∧
    (n > sv_size s →
      sv_reserve s n =
        { m_data := s.m_data, m_cap := n,
          m_buf := s.next_buf, next_buf := s.next_buf + 1 } ∧
      n ≤ (sv_reserve s n).m_cap ∧
      (sv_reserve s n).m_data = s.m_data ∧
      (sv_reserve s n).m_buf = s.next_buf) := by
  constructor
  · intro h
    simp [sv_reserve, Nat.not_lt.mpr h]
  · intro h
    refine ⟨?_, ?_, ?_, ?_⟩ <;> simp [sv_reserve, h]

/-- Witness for the amended C3 theorem at concrete inputs: a vector of size
2 and capacity 4 is untouched by `reserve(2)`, and `reserve(3)` on the same
vector reallocates to capacity exactly 3. -/
theorem c3_reserve_reallocates_iff_count_gt_size_witness :
    (sv_reserve { m_data := [5, 6], m_cap := 4, m_buf := 1, next_buf := 2 } 2 =
      { m_data := [5, 6], m_cap := 4, m_buf := 1, next_buf := 2 }) ∧
    (sv_reserve { m_data := [5, 6], m_cap := 4, m_buf := 1, next_buf := 2 } 3 =
      { m_data := [5, 6], m_cap := 3, m_buf := 2, next_buf := 3 }) :=
  ⟨(c3_reserve_reallocates_iff_count_gt_size
      { m_data := [5, 6], m_cap := 4, m_buf := 1, next_buf := 2 } 2).1
      (by decide),
   ((c3_reserve_reallocates_iff_count_gt_size
      { m_data := [5, 6], m_cap := 4, m_buf := 1, next_buf := 2 } 3).2
      (by decide)).1⟩

/-!
## WorkStorage<ragged_array_of_objects>
`WorkGroup.hpp` lines 541-838. The offset table `m_offsets` is a
`SimpleVector<size_t>` whose element list is modeled directly (its own
amortized-doubling capacity is the `SimpleVector` model above); the byte
arena is modeled as for the constant-stride variant. -/

structure RaggedStorage where
  m_offsets : List Nat
  m_used : Nat
  m_cap : Nat
  arena : List (Nat × WorkRec)
deriving Repr, DecidableEq

/-- A freshly constructed ragged storage. -/
def raggedFresh : RaggedStorage :=
  { m_offsets := [], m_used := 0, m_cap := 0, arena := [] }

/-- `storage_size()`: `m_array_end - m_array_begin`. -/
def ragged_storage_size (s : RaggedStorage) : Nat := s.m_used

/-- `storage_capacity()`: `m_array_cap - m_array_begin`. -/
def ragged_storage_capacity (s : RaggedStorage) : Nat := s.m_cap

/-- `storage_unused()`: `m_array_cap - m_array_end`. -/
def ragged_storage_unused (s : RaggedStorage) : Nat := s.m_cap - s.m_used

/-- `size()`: number of stored offsets. -/
def ragged_size (s : RaggedStorage) : Nat := s.m_offsets.length

/-- `array_reserve(loop_storage_size)`: if the request exceeds the arena
capacity, allocate a new arena, `move_destroy` record `i` from byte offset
`m_offsets[i]` of the old arena to the same offset of the new one for
`i = 0 .. size()-1`, then deallocate the old arena; `m_array_end` keeps the
same distance `storage_size()` from the new begin. -/
def ragged_array_reserve (s : RaggedStorage) (loop_storage_size : Nat) :
    RaggedStorage × List ArenaEvent :=
  if loop_storage_size > ragged_storage_capacity s then
    let moves := s.m_offsets.map (fun o => ArenaEvent.move o o)
    let arena' := s.m_offsets.filterMap
      (fun o => (lookupOff s.arena o).map (fun r => (o, r)))
    ({ s with arena := arena', m_cap := loop_storage_size },
     ArenaEvent.alloc loop_storage_size :: moves ++ [ArenaEvent.free])
  else (s, [])

/-- `create_value<holder>`: if `value_size > storage_unused()`, reserve
`max(storage_size() + value_size, 2*storage_capacity())` bytes; then
construct the record at offset `storage_size()`, advance `m_array_end` by
`value_size`, and return the record's offset. -/
def ragged_create_value (s : RaggedStorage) (value_size : Nat) (r : WorkRec) :
    RaggedStorage × Nat × List ArenaEvent :=
  let grown :=
    if value_size > ragged_storage_unused s then
      ragged_array_reserve s
        (max (ragged_storage_size s + value_size)
             (2 * ragged_storage_capacity s))
    else (s, [])
  let s1 := grown.1
  let value_offset := ragged_storage_size s1
  ({ s1 with
     arena := s1.arena ++ [(value_offset, r)],
     m_used := s1.m_used + value_size },
   value_offset, grown.2)

/-- `emplace<holder>`: append the offset returned by `create_value` to the
offset table. -/
def ragged_emplace (s : RaggedStorage) (value_size : Nat) (r : WorkRec) :
    RaggedStorage × List ArenaEvent :=
  let res := ragged_create_value s value_size r
  ({ res.1 with m_offsets := res.1.m_offsets ++ [res.2.1] }, res.2.2)

/-- Iteration from `begin()` to `end()`: the iterator walks the offset
table in order, dereferencing `m_array_begin + *m_offset_iter`. -/
def ragged_readAll (s : RaggedStorage) : List (Option WorkRec) :=
  s.m_offsets.map (fun o => lookupOff s.arena o)

/-!
## WorkStorage<array_of_pointers>
`WorkGroup.hpp` lines 305-539. `m_vec` owns one heap block per record;
each entry records the block's byte size (`sizeof(true_value_type<holder>)`)
and the record constructed in it. -/

structure AOPStorage where
  m_vec : List (Nat × WorkRec)
  m_storage_size : Nat
deriving Repr, DecidableEq

/-- A freshly constructed array-of-pointers storage. -/
def aopFresh : AOPStorage := { m_vec := [], m_storage_size := 0 }

/-- `size()`: number of stored pointers. -/
def aop_size (s : AOPStorage) : Nat := s.m_vec.length

/-- `storage_size()`: the byte counter `m_storage_size`. -/
def aop_storage_size (s : AOPStorage) : Nat := s.m_storage_size

/-- Total bytes of backing storage owned: the sum of the sizes of the
per-record heap blocks. -/
def aop_storage_capacity (s : AOPStorage) : Nat :=
  (s.m_vec.map Prod.fst).sum

/-- `emplace<holder>`: `create_value` allocates a block of exactly
`sizeof(true_value_type<holder>)` bytes, adds that size to
`m_storage_size`, constructs the record in the block, and the pointer is
appended to `m_vec`. -/
def aop_emplace (s : AOPStorage) (value_size : Nat) (r : WorkRec) :
    AOPStorage :=
  { m_vec := s.m_vec ++ [(value_size, r)],
    m_storage_size := s.m_storage_size + value_size }

/-- Iteration from `begin()` to `end()`: dereference the owning pointers in
vector order. -/
def aop_readAll (s : AOPStorage) : List (Option WorkRec) :=
  s.m_vec.map (fun p => some p.snd)

/-!
## Arena lookup and list helper lemmas
-/

theorem lookupOff_cons_hit (k : Nat) (v : WorkRec) (ar : List (Nat × WorkRec)) :
    lookupOff ((k, v) :: ar) k = some v := by
  simp [lookupOff, List.find?_cons]

theorem lookupOff_cons_ne (p : Nat × WorkRec) (ar : List (Nat × WorkRec))
    (k : Nat) (h : ¬ p.1 = k) : lookupOff (p :: ar) k = lookupOff ar k := by
  simp [lookupOff, List.find?_cons, h]

theorem lookupOff_append_left {ar ar' : List (Nat × WorkRec)} {k : Nat}
    {v : WorkRec} (h : lookupOff ar k = some v) :
    lookupOff (ar ++ ar') k = some v := by
  unfold lookupOff at h ⊢
  rcases h' : ar.find? (fun p => p.fst == k) with _ | p
  · rw [h'] at h
    simp at h
  · rw [h'] at h
    rw [List.find?_append, h']
    simpa using h

theorem lookupOff_append_of_none {ar ar' : List (Nat × WorkRec)} {k : Nat}
    (h : ∀ p ∈ ar, ¬ p.1 = k) :
    lookupOff (ar ++ ar') k = lookupOff ar' k := by
  unfold lookupOff
  rw [List.find?_append]
  have hnone : ar.find? (fun p => p.fst == k) = none :=
    List.find?_eq_none.mpr (by
      intro x hx
      simpa using h x hx)
  rw [hnone, Option.none_or]

theorem filterMap_eq_map_of_mem {α β : Type} (l : List α) (f : α → Option β)
    (g : α → β) (h : ∀ x ∈ l, f x = some (g x)) :
    l.filterMap f = l.map g := by
  induction l with
  | nil => rfl
  | cons a t ih =>
    rw [List.filterMap_cons, h a (by simp), List.map_cons,
      ih (fun x hx => h x (by simp [hx]))]

theorem filterMap_congr_mem {α β : Type} (l : List α) (f g : α → Option β)
    (h : ∀ x ∈ l, f x = g x) : l.filterMap f = l.filterMap g := by
  induction l with
  | nil => rfl
  | cons a t ih =>
    rw [List.filterMap_cons, List.filterMap_cons, h a (by simp),
      ih (fun x hx => h x (by simp [hx]))]

/-!
## Representation invariant of the constant-stride storage
In a storage holding the records `l` (in insertion order), record `i` lives
at byte offset `i * m_stride` and `m_array_end` sits `l.length * m_stride`
bytes past `m_array_begin`. -/

/-- The arena layout of a constant-stride storage holding records `l`. -/
def csCanon (stride : Nat) (l : List WorkRec) : List (Nat × WorkRec) :=
  (List.range l.length).map (fun i => (i * stride, l.getD i 0))

def CSRep (s : CSStorage) (l : List WorkRec) : Prop :=
  1 ≤ s.m_stride ∧
  s.m_used = l.length * s.m_stride ∧
  s.arena = csCanon s.m_stride l

theorem csCanon_append_one (st : Nat) (l : List WorkRec) (r : WorkRec) :
    csCanon st (l ++ [r]) = csCanon st l ++ [(l.length * st, r)] := by
  unfold csCanon
  rw [List.length_append, List.length_singleton, List.range_succ,
    List.map_append]
  congr 1
  · exact List.map_congr_left (fun i hi => by
      rw [List.getD_append _ _ _ _ (List.mem_range.mp hi)])
  · simp

theorem csCanon_key_of_mem {st : Nat} {l : List WorkRec} {x : Nat × WorkRec}
    (hx : x ∈ csCanon st l) : ∃ j, j < l.length ∧ x.1 = j * st := by
  unfold csCanon at hx
  rcases List.mem_map.mp hx with ⟨j, hj, rfl⟩
  exact ⟨j, List.mem_range.mp hj, rfl⟩

theorem lookup_csCanon {st : Nat} (hst : 1 ≤ st) (l : List WorkRec) :
    ∀ i < l.length, lookupOff (csCanon st l) (i * st) = some (l.getD i 0) := by
  induction l using List.reverseRecOn with
  | nil => intro i hi; cases hi
  | append_singleton xs x ih =>
    intro i hi
    rw [csCanon_append_one]
    rcases Nat.lt_or_ge i xs.length with hlt | hge
    · rw [List.getD_append _ _ _ _ hlt]
      exact lookupOff_append_left (ih i hlt)
    · have hieq : i = xs.length := by
        have := List.length_append xs [x] ▸ hi
        simp at this
        omega
      subst hieq
      rw [lookupOff_append_of_none (by
        intro p hp
        rcases csCanon_key_of_mem hp with ⟨j, hj, hkey⟩
        rw [hkey]
        intro heq
        exact absurd (Nat.eq_of_mul_eq_mul_right hst heq) (Nat.ne_of_lt hj))]
      rw [List.getD_append_right _ _ _ _ (Nat.le_refl _), Nat.sub_self]
      exact lookupOff_cons_hit _ _ _

theorem range_map_getD (l : List WorkRec) :
    (List.range l.length).map (fun i => l.getD i 0) = l := by
  induction l with
  | nil => rfl
  | cons a t ih =>
    rw [List.length_cons, List.range_succ_eq_map, List.map_cons,
      List.map_map]
    rw [List.getD_cons_zero]
    congr 1

theorem cs_size_of_rep {s : CSStorage} {l : List WorkRec} (h : CSRep s l) :
    cs_size s = l.length := by
  rcases h with ⟨hst, hused, -⟩
  rw [cs_size, cs_storage_size, hused, Nat.mul_div_cancel _ hst]

theorem cs_readAll_of_rep {s : CSStorage} {l : List WorkRec} (h : CSRep s l) :
    cs_readAll s = l.map some := by
  have hsz := cs_size_of_rep h
  rcases h with ⟨hst, hused, harena⟩
  rw [cs_readAll, hsz, harena]
  rw [List.map_congr_left (fun i hi =>
    lookup_csCanon hst l i (List.mem_range.mp hi))]
  rw [show (fun i => some (l.getD i 0)) = some ∘ (fun i => l.getD i 0) from rfl,
    ← List.map_map, range_map_getD]

theorem cs_array_reserve_pos {s : CSStorage} {lss ns : Nat}
    (hc : lss > cs_storage_capacity s ∨ ns > s.m_stride) :
    cs_array_reserve s lss ns =
      ({ m_stride := ns, m_used := cs_size s * ns, m_cap := lss,
         arena := (List.range (cs_size s)).filterMap
           (fun i => (lookupOff s.arena (i * s.m_stride)).map
             (fun r => (i * ns, r))) },
       ArenaEvent.alloc lss ::
         ((List.range (cs_size s)).map
           (fun i => ArenaEvent.move (i * s.m_stride) (i * ns)))
         ++ [ArenaEvent.free]) := by
  unfold cs_array_reserve
  rw [if_pos hc]

theorem cs_array_reserve_neg {s : CSStorage} {lss ns : Nat}
    (hc : ¬ (lss > cs_storage_capacity s ∨ ns > s.m_stride)) :
    cs_array_reserve s lss ns = (s, []) := by
  unfold cs_array_reserve
  rw [if_neg hc]

theorem cs_array_reserve_rep {s : CSStorage} {l : List WorkRec}
    (h : CSRep s l) (lss : Nat) {ns : Nat} (hns : 1 ≤ ns) :
    CSRep (cs_array_reserve s lss ns).1 l := by
  by_cases hc : lss > cs_storage_capacity s ∨ ns > s.m_stride
  · rw [cs_array_reserve_pos hc]
    have hsz := cs_size_of_rep h
    rcases h with ⟨hst, hused, harena⟩
    refine ⟨hns, by simp [hsz], ?_⟩
    simp only
    rw [hsz, harena]
    rw [filterMap_eq_map_of_mem _ _ (fun i => (i * ns, l.getD i 0))
      (fun i hi => by
        rw [lookup_csCanon hst l i (List.mem_range.mp hi)]
        rfl)]
    rfl
  · rw [cs_array_reserve_neg hc]
    exact h

theorem cs_place_rep {s1 : CSStorage} {l : List WorkRec} (h : CSRep s1 l)
    (r : WorkRec) :
    CSRep { s1 with arena := s1.arena ++ [(s1.m_used, r)],
                    m_used := s1.m_used + s1.m_stride } (l ++ [r]) := by
  rcases h with ⟨hst, hused, harena⟩
  refine ⟨hst, ?_, ?_⟩
  · simp only [List.length_append, List.length_singleton, hused,
      Nat.succ_mul]
  · simp only
    rw [csCanon_append_one, harena, hused]

theorem cs_create_value_rep {s : CSStorage} {l : List WorkRec}
    (h : CSRep s l) {v : Nat} (hv : 1 ≤ v) (r : WorkRec) :
    CSRep (cs_create_value s v r).1 (l ++ [r]) := by
  have hst := h.1
  simp only [cs_create_value]
  by_cases h1 : v > cs_storage_unused s ∧ v ≤ s.m_stride
  · rw [if_pos h1]
    exact cs_place_rep (cs_array_reserve_rep h _ hst) r
  · rw [if_neg h1]
    by_cases h2 : v > s.m_stride
    · rw [if_pos h2]
      exact cs_place_rep (cs_array_reserve_rep h _ hv) r
    · rw [if_neg h2]
      exact cs_place_rep h r

/-- Emplacing a list of (holder size, record) pairs in order. -/
def cs_emplaceAll (s : CSStorage) (ps : List (Nat × WorkRec)) : CSStorage :=
  ps.foldl (fun st p => (cs_emplace st p.1 p.2).1) s

theorem cs_emplaceAll_rep :
    ∀ (ps : List (Nat × WorkRec)) (s : CSStorage) (l : List WorkRec),
      CSRep s l → (∀ p ∈ ps, 1 ≤ p.1) →
      CSRep (cs_emplaceAll s ps) (l ++ ps.map Prod.snd) := by
  intro ps
  induction ps with
  | nil => intro s l h _; simpa [cs_emplaceAll] using h
  | cons p t ih =>
    intro s l h hwf
    have hstep : CSRep (cs_emplace s p.1 p.2).1 (l ++ [p.2]) :=
      cs_create_value_rep h (hwf p (by simp)) p.2
    have := ih (cs_emplace s p.1 p.2).1 (l ++ [p.2]) hstep
      (fun q hq => hwf q (by simp [hq]))
    simpa [cs_emplaceAll, List.append_assoc] using this

theorem csFresh_rep : CSRep csFresh [] := by
  refine ⟨Nat.le_refl 1, rfl, rfl⟩

/-!
## Representation invariant of the ragged storage
The offset table lists the records' byte offsets in insertion order; the
offsets grow strictly and all lie below `m_array_end`, and the arena holds
exactly the (offset, record) pairs. -/

def RaggedRep (s : RaggedStorage) (l : List WorkRec) : Prop :=
  s.m_offsets.length = l.length ∧
  s.m_offsets.Pairwise (· < ·) ∧
  (∀ o ∈ s.m_offsets, o < s.m_used) ∧
  s.arena = s.m_offsets.zip l

theorem zip_lookup_map :
    ∀ (ol : List Nat) (l : List WorkRec), ol.Pairwise (· < ·) →
      ol.length = l.length →
      ol.map (fun o => lookupOff (ol.zip l) o) = l.map some := by
  intro ol
  induction ol with
  | nil =>
    intro l _ hlen
    rw [List.length_nil] at hlen
    rw [List.eq_nil_of_length_eq_zero hlen.symm]
    rfl
  | cons o ot ih =>
    intro l hpw hlen
    cases l with
    | nil => cases hlen
    | cons r lt =>
      rw [List.zip_cons_cons, List.map_cons, List.map_cons]
      rw [lookupOff_cons_hit]
      congr 1
      have hne : ∀ o' ∈ ot, ¬ o = o' :=
        fun o' ho' => Nat.ne_of_lt ((List.pairwise_cons.mp hpw).1 o' ho')
      rw [List.map_congr_left (fun o' ho' => lookupOff_cons_ne (o, r) _ o'
        (fun hk => hne o' ho' hk))]
      exact ih lt (List.pairwise_cons.mp hpw).2 (by simpa using hlen)

theorem zip_relocate :
    ∀ (ol : List Nat) (l : List WorkRec), ol.Pairwise (· < ·) →
      ol.length = l.length →
      ol.filterMap (fun o => (lookupOff (ol.zip l) o).map (fun r => (o, r)))
        = ol.zip l := by
  intro ol
  induction ol with
  | nil => intro l _ _; rfl
  | cons o ot ih =>
    intro l hpw hlen
    cases l with
    | nil => cases hlen
    | cons r lt =>
      rw [List.zip_cons_cons, List.filterMap_cons]
      rw [lookupOff_cons_hit]
      simp only [Option.map_some']
      congr 1
      have hne : ∀ o' ∈ ot, ¬ o = o' :=
        fun o' ho' => Nat.ne_of_lt ((List.pairwise_cons.mp hpw).1 o' ho')
      rw [filterMap_congr_mem _ _
        (fun o' => (lookupOff (ot.zip lt) o').map (fun r => (o', r)))
        (fun o' ho' => by
          rw [lookupOff_cons_ne (o, r) _ o' (fun hk => hne o' ho' hk)])]
      exact ih lt (List.pairwise_cons.mp hpw).2 (by simpa using hlen)

theorem ragged_size_of_rep {s : RaggedStorage} {l : List WorkRec}
    (h : RaggedRep s l) : ragged_size s = l.length := h.1

theorem ragged_readAll_of_rep {s : RaggedStorage} {l : List WorkRec}
    (h : RaggedRep s l) : ragged_readAll s = l.map some := by
  rcases h with ⟨hlen, hpw, -, harena⟩
  rw [ragged_readAll, harena]
  exact zip_lookup_map _ _ hpw hlen

theorem ragged_array_reserve_pos {s : RaggedStorage} {lss : Nat}
    (hc : lss > ragged_storage_capacity s) :
    ragged_array_reserve s lss =
      ({ s with
         arena := s.m_offsets.filterMap
           (fun o => (lookupOff s.arena o).map (fun r => (o, r))),
         m_cap := lss },
       ArenaEvent.alloc lss ::
         (s.m_offsets.map (fun o => ArenaEvent.move o o))
         ++ [ArenaEvent.free]) := by
  unfold ragged_array_reserve
  rw [if_pos hc]

theorem ragged_array_reserve_neg {s : RaggedStorage} {lss : Nat}
    (hc : ¬ lss > ragged_storage_capacity s) :
    ragged_array_reserve s lss = (s, []) := by
  unfold ragged_array_reserve
  rw [if_neg hc]

theorem ragged_array_reserve_rep {s : RaggedStorage} {l : List WorkRec}
    (h : RaggedRep s l) (lss : Nat) :
    RaggedRep (ragged_array_reserve s lss).1 l := by
  by_cases hc : lss > ragged_storage_capacity s
  · rw [ragged_array_reserve_pos hc]
    rcases h with ⟨hlen, hpw, hbound, harena⟩
    refine ⟨hlen, hpw, hbound, ?_⟩
    simp only
    rw [harena]
    exact zip_relocate _ _ hpw hlen
  · rw [ragged_array_reserve_neg hc]
    exact h

theorem ragged_place_rep {s1 : RaggedStorage} {l : List WorkRec}
    (h : RaggedRep s1 l) {v : Nat} (hv : 1 ≤ v) (r : WorkRec) :
    RaggedRep
      { s1 with
        m_offsets := s1.m_offsets ++ [s1.m_used],
        arena := s1.arena ++ [(s1.m_used, r)],
        m_used := s1.m_used + v } (l ++ [r]) := by
  rcases h with ⟨hlen, hpw, hbound, harena⟩
  refine ⟨by simp [hlen], ?_, ?_, ?_⟩
  · exact List.pairwise_append.mpr
      ⟨hpw, List.pairwise_singleton _ _,
       fun a ha b hb => by
         rw [List.mem_singleton.mp hb]
         exact hbound a ha⟩
  · intro o ho
    rcases List.mem_append.mp ho with ho' | ho'
    · exact Nat.lt_of_lt_of_le (hbound o ho') (Nat.le_add_right _ _)
    · rw [List.mem_singleton.mp ho']
      exact Nat.lt_add_of_pos_right hv
  · simp only
    rw [harena, List.zip_append hlen]
    rfl

theorem ragged_emplace_rep {s : RaggedStorage} {l : List WorkRec}
    (h : RaggedRep s l) {v : Nat} (hv : 1 ≤ v) (r : WorkRec) :
    RaggedRep (ragged_emplace s v r).1 (l ++ [r]) := by
  simp only [ragged_emplace, ragged_create_value]
  by_cases h1 : v > ragged_storage_unused s
  · rw [if_pos h1]
    exact ragged_place_rep (ragged_array_reserve_rep h _) hv r
  · rw [if_neg h1]
    exact ragged_place_rep h hv r

/-- Emplacing a list of (holder size, record) pairs in order. -/
def ragged_emplaceAll (s : RaggedStorage) (ps : List (Nat × WorkRec)) :
    RaggedStorage :=
  ps.foldl (fun st p => (ragged_emplace st p.1 p.2).1) s

theorem ragged_emplaceAll_rep :
    ∀ (ps : List (Nat × WorkRec)) (s : RaggedStorage) (l : List WorkRec),
      RaggedRep s l → (∀ p ∈ ps, 1 ≤ p.1) →
      RaggedRep (ragged_emplaceAll s ps) (l ++ ps.map Prod.snd) := by
  intro ps
  induction ps with
  | nil => intro s l h _; simpa [ragged_emplaceAll] using h
  | cons p t ih =>
    intro s l h hwf
    have hstep : RaggedRep (ragged_emplace s p.1 p.2).1 (l ++ [p.2]) :=
      ragged_emplace_rep h (hwf p (by simp)) p.2
    have := ih (ragged_emplace s p.1 p.2).1 (l ++ [p.2]) hstep
      (fun q hq => hwf q (by simp [hq]))
    simpa [ragged_emplaceAll, List.append_assoc] using this

theorem raggedFresh_rep : RaggedRep raggedFresh [] := by
  refine ⟨rfl, List.Pairwise.nil, ?_, rfl⟩
  intro o ho
  cases ho

/-- Emplacing a list of (holder size, record) pairs in order. -/
def aop_emplaceAll (s : AOPStorage) (ps : List (Nat × WorkRec)) : AOPStorage :=
  ps.foldl (fun st p => aop_emplace st p.1 p.2) s

theorem aop_emplaceAll_vec :
    ∀ (ps : List (Nat × WorkRec)) (s : AOPStorage),
      (aop_emplaceAll s ps).m_vec = s.m_vec ++ ps := by
  intro ps
  induction ps with
  | nil => intro s; simp [aop_emplaceAll]
  | cons p t ih =>
    intro s
    have := ih (aop_emplace s p.1 p.2)
    simpa [aop_emplaceAll, aop_emplace, List.append_assoc] using this

/-!
## Work runners
`WorkRunnerForallOrdered::run` iterates the storage from `begin()` to
`end()` and calls each record; `WorkRunnerForallReverse::run` iterates from
`end()` down to `begin()` calling `*(iter-1)`. A call appends the record's
payload value to the shared log (dereferencing an absent record appends
nothing; under the representation invariant every read is present). -/

def runner_call (log : List WorkRec) (o : Option WorkRec) : List WorkRec :=
  log ++ o.toList

/-- The log produced by the ordered runner's loop over the reads of a
storage traversal. -/
def run_ordered (iter : List (Option WorkRec)) : List WorkRec :=
  iter.foldl runner_call []

/-- The log produced by the reverse runner's loop: the traversal reads are
consumed from the last to the first. -/
def run_reverse (iter : List (Option WorkRec)) : List WorkRec :=
  iter.reverse.foldl runner_call []

theorem foldl_runner_call :
    ∀ (l : List (Option WorkRec)) (acc : List WorkRec),
      l.foldl runner_call acc = acc ++ l.filterMap id := by
  intro l
  induction l with
  | nil => intro acc; simp
  | cons o t ih =>
    intro acc
    rw [List.foldl_cons, ih, List.filterMap_cons]
    cases o with
    | none => simp [runner_call]
    | some a => simp [runner_call]

theorem run_ordered_map_some (l : List WorkRec) :
    run_ordered (l.map some) = l := by
  rw [run_ordered, foldl_runner_call, List.nil_append, List.filterMap_map]
  simp

theorem run_reverse_map_some (l : List WorkRec) :
    run_reverse (l.map some) = l.reverse := by
  rw [run_reverse, ← List.map_reverse, foldl_runner_call, List.nil_append,
    List.filterMap_map]
  simp

/-- C4: after any sequence of N `emplace` operations (each holder occupying
at least one byte, as `sizeof` guarantees), each of the three storage
variants reports `size() = N`, and iterating from `begin()` to `end()`
reads the N records in exactly insertion order. -/
theorem c4_size_and_insertion_order
    (ps : List (Nat × WorkRec)) (hwf : ∀ p ∈ ps, 1 ≤ p.1) :
    (aop_size (aop_emplaceAll aopFresh ps) = ps.length ∧
     aop_readAll (aop_emplaceAll aopFresh ps) =
       (ps.map Prod.snd).map some) ∧
    (ragged_size (ragged_emplaceAll raggedFresh ps) = ps.length ∧
     ragged_readAll (ragged_emplaceAll raggedFresh ps) =
       (ps.map Prod.snd).map some) ∧
    (cs_size (cs_emplaceAll csFresh ps) = ps.length ∧
     cs_readAll (cs_emplaceAll csFresh ps) =
       (ps.map Prod.snd).map some) := by
  have hragged := ragged_emplaceAll_rep ps raggedFresh [] raggedFresh_rep hwf
  have hcs := cs_emplaceAll_rep ps csFresh [] csFresh_rep hwf
  rw [List.nil_append] at hragged hcs
  refine ⟨⟨?_, ?_⟩, ⟨?_, ?_⟩, ⟨?_, ?_⟩⟩
  · rw [aop_size, aop_emplaceAll_vec]
    simp [aopFresh]
  · rw [aop_readAll, aop_emplaceAll_vec]
    simp [aopFresh, List.map_map, Function.comp]
  · rw [ragged_size_of_rep hragged, List.length_map]
  · rw [ragged_readAll_of_rep hragged]
  · rw [cs_size_of_rep hcs, List.length_map]
  · rw [cs_readAll_of_rep hcs]

/-- Witness for the C4 theorem: three records of sizes 8, 64, 8. -/
theorem c4_size_and_insertion_order_witness :
    (aop_size (aop_emplaceAll aopFresh [(8, 10), (64, 20), (8, 30)]) =
       [((8 : Nat), (10 : WorkRec)), (64, 20), (8, 30)].length ∧
     aop_readAll (aop_emplaceAll aopFresh [(8, 10), (64, 20), (8, 30)]) =
       ([((8 : Nat), (10 : WorkRec)), (64, 20), (8, 30)].map Prod.snd).map
         some) ∧
    (ragged_size (ragged_emplaceAll raggedFresh [(8, 10), (64, 20), (8, 30)]) =
       [((8 : Nat), (10 : WorkRec)), (64, 20), (8, 30)].length ∧
     ragged_readAll
         (ragged_emplaceAll raggedFresh [(8, 10), (64, 20), (8, 30)]) =
       ([((8 : Nat), (10 : WorkRec)), (64, 20), (8, 30)].map Prod.snd).map
         some) ∧
    (cs_size (cs_emplaceAll csFresh [(8, 10), (64, 20), (8, 30)]) =
       [((8 : Nat), (10 : WorkRec)), (64, 20), (8, 30)].length ∧
     cs_readAll (cs_emplaceAll csFresh [(8, 10), (64, 20), (8, 30)]) =
       ([((8 : Nat), (10 : WorkRec)), (64, 20), (8, 30)].map Prod.snd).map
         some) :=
  c4_size_and_insertion_order [(8, 10), (64, 20), (8, 30)] (by decide)

/-- C5: on each storage variant holding N enqueued records, the ordered
runner's `run` invokes the stored closures in exactly insertion order and
the reverse runner's in exact reverse insertion order: with closures that
append their identity to a shared log, the ordered log is the insertion
sequence and the reverse log its exact reverse. -/
theorem c5_ordered_and_reverse_runner
    (ps : List (Nat × WorkRec)) (hwf : ∀ p ∈ ps, 1 ≤ p.1) :
    (run_ordered (aop_readAll (aop_emplaceAll aopFresh ps)) =
       ps.map Prod.snd ∧
     run_reverse (aop_readAll (aop_emplaceAll aopFresh ps)) =
       (ps.map Prod.snd).reverse) ∧
    (run_ordered (ragged_readAll (ragged_emplaceAll raggedFresh ps)) =
       ps.map Prod.snd ∧
     run_reverse (ragged_readAll (ragged_emplaceAll raggedFresh ps)) =
       (ps.map Prod.snd).reverse) ∧
    (run_ordered (cs_readAll (cs_emplaceAll csFresh ps)) =
       ps.map Prod.snd ∧
     run_reverse (cs_readAll (cs_emplaceAll csFresh ps)) =
       (ps.map Prod.snd).reverse) := by
  have hragged := ragged_emplaceAll_rep ps raggedFresh [] raggedFresh_rep hwf
  have hcs := cs_emplaceAll_rep ps csFresh [] csFresh_rep hwf
  rw [List.nil_append] at hragged hcs
  have haop : aop_readAll (aop_emplaceAll aopFresh ps) =
      (ps.map Prod.snd).map some := by
    rw [aop_readAll, aop_emplaceAll_vec]
    simp [aopFresh, List.map_map, Function.comp]
  refine ⟨⟨?_, ?_⟩, ⟨?_, ?_⟩, ⟨?_, ?_⟩⟩
  · rw [haop, run_ordered_map_some]
  · rw [haop, run_reverse_map_some]
  · rw [ragged_readAll_of_rep hragged, run_ordered_map_some]
  · rw [ragged_readAll_of_rep hragged, run_reverse_map_some]
  · rw [cs_readAll_of_rep hcs, run_ordered_map_some]
  · rw [cs_readAll_of_rep hcs, run_reverse_map_some]

/-- Witness for the C5 theorem: three records of sizes 8, 64, 8. -/
theorem c5_ordered_and_reverse_runner_witness :
    (run_ordered (aop_readAll
         (aop_emplaceAll aopFresh [(8, 10), (64, 20), (8, 30)])) =
       [((8 : Nat), (10 : WorkRec)), (64, 20), (8, 30)].map Prod.snd ∧
     run_reverse (aop_readAll
         (aop_emplaceAll aopFresh [(8, 10), (64, 20), (8, 30)])) =
       ([((8 : Nat), (10 : WorkRec)), (64, 20), (8, 30)].map
         Prod.snd).reverse) ∧
    (run_ordered (ragged_readAll
         (ragged_emplaceAll raggedFresh [(8, 10), (64, 20), (8, 30)])) =
       [((8 : Nat), (10 : WorkRec)), (64, 20), (8, 30)].map Prod.snd ∧
     run_reverse (ragged_readAll
         (ragged_emplaceAll raggedFresh [(8, 10), (64, 20), (8, 30)])) =
       ([((8 : Nat), (10 : WorkRec)), (64, 20), (8, 30)].map
         Prod.snd).reverse) ∧
    (run_ordered (cs_readAll
         (cs_emplaceAll csFresh [(8, 10), (64, 20), (8, 30)])) =
       [((8 : Nat), (10 : WorkRec)), (64, 20), (8, 30)].map Prod.snd ∧
     run_reverse (cs_readAll
         (cs_emplaceAll csFresh [(8, 10), (64, 20), (8, 30)])) =
       ([((8 : Nat), (10 : WorkRec)), (64, 20), (8, 30)].map
         Prod.snd).reverse) :=
  c5_ordered_and_reverse_runner [(8, 10), (64, 20), (8, 30)] (by decide)

theorem moveSrcs_alloc_cons (lss : Nat) (evs : List ArenaEvent) :
    moveSrcs (ArenaEvent.alloc lss :: evs) = moveSrcs evs := by
  simp [moveSrcs, List.filterMap_cons]

theorem moveSrcs_append (a b : List ArenaEvent) :
    moveSrcs (a ++ b) = moveSrcs a ++ moveSrcs b := by
  simp [moveSrcs, List.filterMap_append]

theorem moveSrcs_map_move {α : Type} (l : List α) (f g : α → Nat) :
    moveSrcs (l.map (fun i => ArenaEvent.move (f i) (g i))) = l.map f := by
  rw [moveSrcs, List.filterMap_map]
  exact filterMap_eq_map_of_mem _ _ f (fun i _ => rfl)

/-- C6: whenever a ragged or constant-stride storage actually grows its
arena, every stored record is relocated via `move_destroy`, in strictly
increasing source-position order, all relocations happen before the old
arena is freed (the `free` event is last, and nothing after the moves
precedes it), and the records are preserved: reading the storage after the
growth gives exactly the records that were read before, so invoking any
record afterwards behaves identically. -/
theorem c6_relocation_preserves_records :
    (∀ (s : CSStorage) (l : List WorkRec) (lss ns : Nat),
      CSRep s l → 1 ≤ ns →
      (lss > cs_storage_capacity s ∨ ns > s.m_stride) →
      cs_readAll (cs_array_reserve s lss ns).1 = cs_readAll s ∧
      cs_readAll (cs_array_reserve s lss ns).1 = l.map some ∧
      moveSrcs (cs_array_reserve s lss ns).2 =
        (List.range l.length).map (fun i => i * s.m_stride) ∧
      List.Pairwise (· < ·) (moveSrcs (cs_array_reserve s lss ns).2) ∧
      (cs_array_reserve s lss ns).2.getLast? = some ArenaEvent.free ∧
      (∀ e ∈ (cs_array_reserve s lss ns).2.dropLast,
        ¬ e = ArenaEvent.free)) ∧
    (∀ (t : RaggedStorage) (l : List WorkRec) (lss : Nat),
      RaggedRep t l → lss > ragged_storage_capacity t →
      ragged_readAll (ragged_array_reserve t lss).1 = ragged_readAll t ∧
      ragged_readAll (ragged_array_reserve t lss).1 = l.map some ∧
      moveSrcs (ragged_array_reserve t lss).2 = t.m_offsets ∧
      List.Pairwise (· < ·) (moveSrcs (ragged_array_reserve t lss).2) ∧
      (ragged_array_reserve t lss).2.getLast? = some ArenaEvent.free ∧
      (∀ e ∈ (ragged_array_reserve t lss).2.dropLast,
        ¬ e = ArenaEvent.free)) := by
  constructor
  · intro s l lss ns h hns hc
    have hrep' := cs_array_reserve_rep h lss hns
    have hread : cs_readAll (cs_array_reserve s lss ns).1 = l.map some :=
      cs_readAll_of_rep hrep'
    have hsz := cs_size_of_rep h
    have hst := h.1
    have hevs : (cs_array_reserve s lss ns).2 =
        ArenaEvent.alloc lss ::
          ((List.range l.length).map
            (fun i => ArenaEvent.move (i * s.m_stride) (i * ns)))
          ++ [ArenaEvent.free] := by
      rw [cs_array_reserve_pos hc, hsz]
    have hsrcs : moveSrcs (cs_array_reserve s lss ns).2 =
        (List.range l.length).map (fun i => i * s.m_stride) := by
      rw [hevs, moveSrcs_append, moveSrcs_alloc_cons, moveSrcs_map_move]
      simp [moveSrcs]
    refine ⟨hread.trans (cs_readAll_of_rep h).symm, hread, hsrcs, ?_, ?_, ?_⟩
    · rw [hsrcs]
      exact List.pairwise_map.mpr
        ((List.pairwise_lt_range l.length).imp
          (fun hab => Nat.mul_lt_mul_of_pos_right hab hst))
    · rw [hevs, List.getLast?_concat]
    · rw [hevs, List.dropLast_concat]
      intro e he
      rcases List.mem_cons.mp he with rfl | he'
      · intro hfalse; cases hfalse
      · rcases List.mem_map.mp he' with ⟨i, -, rfl⟩
        intro hfalse; cases hfalse
  · intro t l lss h hc
    have hrep' := ragged_array_reserve_rep h lss
    have hread : ragged_readAll (ragged_array_reserve t lss).1 =
        l.map some := ragged_readAll_of_rep hrep'
    have hpw := h.2.1
    have hevs : (ragged_array_reserve t lss).2 =
        ArenaEvent.alloc lss ::
          (t.m_offsets.map (fun o => ArenaEvent.move o o))
          ++ [ArenaEvent.free] := by
      rw [ragged_array_reserve_pos hc]
    have hsrcs : moveSrcs (ragged_array_reserve t lss).2 = t.m_offsets := by
      rw [hevs, moveSrcs_append, moveSrcs_alloc_cons,
        moveSrcs_map_move t.m_offsets (fun o => o) (fun o => o)]
      simp [moveSrcs]
    refine ⟨hread.trans (ragged_readAll_of_rep h).symm, hread, hsrcs,
      ?_, ?_, ?_⟩
    · rw [hsrcs]
      exact hpw
    · rw [hevs, List.getLast?_concat]
    · rw [hevs, List.dropLast_concat]
      intro e he
      rcases List.mem_cons.mp he with rfl | he'
      · intro hfalse; cases hfalse
      · rcases List.mem_map.mp he' with ⟨o, -, rfl⟩
        intro hfalse; cases hfalse

/-- Witness for the C6 theorem: a constant-stride storage with two records
at stride 8 regrown to 64 bytes, and a ragged storage with two records at
offsets 0 and 8 regrown to 64 bytes. -/
theorem c6_relocation_preserves_records_witness :
    (cs_readAll (cs_array_reserve ⟨8, 16, 16, [(0, 5), (8, 7)]⟩ 64 8).1 =
       cs_readAll ⟨8, 16, 16, [(0, 5), (8, 7)]⟩ ∧
     cs_readAll (cs_array_reserve ⟨8, 16, 16, [(0, 5), (8, 7)]⟩ 64 8).1 =
       [5, 7].map some ∧
     moveSrcs (cs_array_reserve ⟨8, 16, 16, [(0, 5), (8, 7)]⟩ 64 8).2 =
       (List.range 2).map (fun i => i * 8) ∧
     List.Pairwise (· < ·)
       (moveSrcs (cs_array_reserve ⟨8, 16, 16, [(0, 5), (8, 7)]⟩ 64 8).2) ∧
     (cs_array_reserve ⟨8, 16, 16, [(0, 5), (8, 7)]⟩ 64 8).2.getLast? =
       some ArenaEvent.free ∧
     (∀ e ∈ (cs_array_reserve
          ⟨8, 16, 16, [(0, 5), (8, 7)]⟩ 64 8).2.dropLast,
        ¬ e = ArenaEvent.free)) ∧
    (ragged_readAll
       (ragged_array_reserve ⟨[0, 8], 16, 16, [(0, 5), (8, 7)]⟩ 64).1 =
       ragged_readAll ⟨[0, 8], 16, 16, [(0, 5), (8, 7)]⟩ ∧
     ragged_readAll
       (ragged_array_reserve ⟨[0, 8], 16, 16, [(0, 5), (8, 7)]⟩ 64).1 =
       [5, 7].map some ∧
     moveSrcs
       (ragged_array_reserve ⟨[0, 8], 16, 16, [(0, 5), (8, 7)]⟩ 64).2 =
       [0, 8] ∧
     List.Pairwise (· < ·)
       (moveSrcs
         (ragged_array_reserve ⟨[0, 8], 16, 16, [(0, 5), (8, 7)]⟩ 64).2) ∧
     (ragged_array_reserve
        ⟨[0, 8], 16, 16, [(0, 5), (8, 7)]⟩ 64).2.getLast? =
       some ArenaEvent.free ∧
     (∀ e ∈ (ragged_array_reserve
          ⟨[0, 8], 16, 16, [(0, 5), (8, 7)]⟩ 64).2.dropLast,
        ¬ e = ArenaEvent.free)) :=
  ⟨c6_relocation_preserves_records.1 ⟨8, 16, 16, [(0, 5), (8, 7)]⟩ [5, 7]
     64 8 (by refine ⟨by decide, by decide, by decide⟩) (by decide)
     (by decide),
   c6_relocation_preserves_records.2 ⟨[0, 8], 16, 16, [(0, 5), (8, 7)]⟩
     [5, 7] 64
     (by refine ⟨by decide, by decide, by decide, by decide⟩) (by decide)⟩

/-!
## WorkGroupNode (include/RAJA/pattern/graph/WorkGroupNode.hpp)
The node wraps a work pool / work group / work site triple. -/

/-- Modelled from the spec: `WorkPool` (`RAJA/pattern/WorkGroup.hpp` is not
among the sources) is the build-phase container into which (index set,
loop body) pairs are enqueued through the runner; `num_loops()` counts the
stored loops, `clear()` empties the pool, and `instantiate()` builds the
runnable work group from the stored loops. -/
structure WorkPoolM where
  loops : List WorkRec
deriving Repr, DecidableEq

/-- Modelled from the spec: `WorkGroup` (`RAJA/pattern/WorkGroup.hpp` is
not among the sources) holds the instantiated loops; `run(args...)` walks
them in order producing a `WorkSite`, and `clear()` empties the group. -/
structure WorkGroupM where
  runList : List WorkRec
deriving Repr, DecidableEq

/-- Modelled from the spec: `WorkSite` (`RAJA/pattern/WorkGroup.hpp` is not
among the sources) carries the per-run state of the last `run` (here, the
log of invoked loops); `clear()` empties it. -/
structure WorkSiteM where
  log : List WorkRec
deriving Repr, DecidableEq

def pool_enqueue (p : WorkPoolM) (r : WorkRec) : WorkPoolM :=
  ⟨p.loops ++ [r]⟩

def pool_clear (_p : WorkPoolM) : WorkPoolM := ⟨[]⟩

def pool_instantiate (p : WorkPoolM) : WorkGroupM := ⟨p.loops⟩

def group_run (g : WorkGroupM) : WorkSiteM := ⟨g.runList⟩

def group_clear (_g : WorkGroupM) : WorkGroupM := ⟨[]⟩

def site_clear (_s : WorkSiteM) : WorkSiteM := ⟨[]⟩

/-- The state of a `WorkGroupNode`; the `camp::tuple<Args...>` of stored
runtime arguments is modeled as a single value with default 0
(`Args()...`). -/
structure WorkGroupNodeM where
  m_pool : WorkPoolM
  m_group : WorkGroupM
  m_site : WorkSiteM
  m_args : Nat
  m_instantiated : Bool
deriving Repr, DecidableEq

/-- The constructor: `m_pool(aloc), m_group(m_pool.instantiate()),
m_site(m_group.run(Args()...)), m_args(Args()...), m_instantiated(true)`. -/
def nodeFresh : WorkGroupNodeM :=
  let pool : WorkPoolM := ⟨[]⟩
  let group := pool_instantiate pool
  let site := group_run group
  ⟨pool, group, site, 0, true⟩

/-- `num_loops()`. -/
def node_num_loops (nd : WorkGroupNodeM) : Nat := nd.m_pool.loops.length

/-- `enqueue(args...)`: marks the node uninstantiated and forwards to the
pool. -/
def node_enqueue (nd : WorkGroupNodeM) (r : WorkRec) : WorkGroupNodeM :=
  { nd with m_instantiated := false, m_pool := pool_enqueue nd.m_pool r }

/-- `instantiate()`: regenerate `m_group` from the pool unless already
instantiated. -/
def node_instantiate (nd : WorkGroupNodeM) : WorkGroupNodeM :=
  if nd.m_instantiated then nd
  else { nd with m_instantiated := true,
                 m_group := pool_instantiate nd.m_pool }

/-- `clear()`: `m_instantiated = true; m_site.clear(); m_group.clear();
m_pool.clear(); m_args = tuple(Args()...); m_group = m_pool.instantiate();
m_site = m_group.run(Args()...)`. -/
def node_clear (nd : WorkGroupNodeM) : WorkGroupNodeM :=
  let nd1 := { nd with m_instantiated := true,
                       m_site := site_clear nd.m_site,
                       m_group := group_clear nd.m_group,
                       m_pool := pool_clear nd.m_pool,
                       m_args := 0 }
  let group := pool_instantiate nd1.m_pool
  { nd1 with m_group := group, m_site := group_run group }

/-- `exec(gr)`: `instantiate()` then run the group, storing the new site;
also returns the log of loops the run invoked. -/
def node_exec (nd : WorkGroupNodeM) : WorkGroupNodeM × List WorkRec :=
  let nd1 := node_instantiate nd
  let site := group_run nd1.m_group
  ({ nd1 with m_site := site }, site.log)

/-- An enqueue/run cycle: enqueue the given loops in order, then execute. -/
def node_cycle (nd : WorkGroupNodeM) (rs : List WorkRec) :
    WorkGroupNodeM × List WorkRec :=
  node_exec (rs.foldl node_enqueue nd)

/-- C7: after `clear()` the number of stored loops is 0, `clear()` is
idempotent, the cleared node is exactly the freshly constructed node state
(so any subsequent enqueue/run cycle behaves as on a fresh container), and
`SimpleVector::clear` likewise empties the buffer idempotently. -/
theorem c7_clear_idempotent_and_fresh (nd : WorkGroupNodeM)
    (sv : SimpleVector) :
    node_num_loops (node_clear nd) = 0 ∧
    node_clear (node_clear nd) = node_clear nd ∧
    node_clear nd = nodeFresh ∧
    (∀ rs : List WorkRec,
      node_cycle (node_clear nd) rs = node_cycle nodeFresh rs) ∧
    sv_size (sv_clear sv) = 0 ∧
    sv_clear (sv_clear sv) = sv_clear sv := by
  refine ⟨rfl, rfl, rfl, fun rs => rfl, rfl, rfl⟩

/-!
## omp_task_atomic_graph traverse (include/RAJA/policy/openmp/graph/DAG.hpp)
Each completing predecessor calls `traverse(node, gr)`, which atomically
captures `node_count = ++node->m_count` (`omp atomic capture`); only the
traversal observing `node_count == node->m_parent_count` resets the counter
to 0 and dispatches the node as an `omp task`. Because the increment is a
single atomic step, an execution under concurrent predecessor completions
is an arbitrary interleaving, i.e. a sequence of arrivals. -/

/-- One atomic arrival of `traverse` at a node from predecessor `p`: the
state is the counter value and the list of arrivals that dispatched the
node so far. -/
def omp_traverse_arrival (parent_count : Nat) (st : Nat × List Nat)
    (p : Nat) : Nat × List Nat :=
  let node_count := st.1 + 1
  if node_count = parent_count then (0, st.2 ++ [p])
  else (node_count, st.2)

/-- The node's counter and dispatch list after its completing predecessors
arrive in the interleaving order `sched`, the counter starting at 0. -/
def omp_node_run (parent_count : Nat) (sched : List Nat) : Nat × List Nat :=
  sched.foldl (omp_traverse_arrival parent_count) (0, [])

theorem omp_node_run_aux (d : Nat) :
    ∀ (rest : List Nat) (c : Nat) (log : List Nat), rest ≠ [] →
      c + rest.length = d →
      rest.foldl (omp_traverse_arrival d) (c, log) =
        (0, log ++ rest.getLast?.toList) := by
  intro rest
  induction rest with
  | nil => intro c log h; exact absurd rfl h
  | cons p t ih =>
    intro c log _ hlen
    cases t with
    | nil =>
      have hc : c + 1 = d := by simpa using hlen
      rw [List.foldl_cons, List.foldl_nil, omp_traverse_arrival, if_pos hc]
      rfl
    | cons q t' =>
      have hlt : c + 1 < d := by
        simp only [List.length_cons] at hlen
        omega
      rw [List.foldl_cons]
      rw [show omp_traverse_arrival d (c, log) p = (c + 1, log) from by
        rw [omp_traverse_arrival, if_neg (Nat.ne_of_lt hlt)]]
      rw [ih (c + 1) log (by simp) (by
        simp only [List.length_cons] at hlen ⊢
        omega)]
      rw [List.getLast?_cons_cons]

/-- C9: for a node with `parent_count = d ≥ 1` predecessors, under every
interleaving in which each completing predecessor performs its atomic
counter increment exactly once, exactly one traversal dispatches the node —
the one whose increment makes the counter reach `d`, namely the last
arrival of the interleaving — and the counter is left reset to 0. -/
theorem c9_atomic_counter_single_dispatch (d : Nat) (sched : List Nat)
    (hd : 1 ≤ d) (hperm : sched.Perm (List.range d)) :
    (omp_node_run d sched).2 = sched.getLast?.toList ∧
    (omp_node_run d sched).2.length = 1 ∧
    (omp_node_run d sched).1 = 0 := by
  have hlen : sched.length = d := by
    rw [hperm.length_eq, List.length_range]
  have hne : sched ≠ [] := by
    intro h
    rw [h] at hlen
    simp at hlen
    omega
  have hrun := omp_node_run_aux d sched 0 [] hne (by omega)
  rw [omp_node_run, hrun]
  refine ⟨by simp, ?_, rfl⟩
  have : sched.getLast?.isSome := List.getLast?_isSome.mpr hne
  rcases Option.isSome_iff_exists.mp this with ⟨x, hx⟩
  simp [hx]

/-- Witness for the C9 theorem: a node with two predecessors completing in
the order 1, 0; only the second arrival dispatches. -/
theorem c9_atomic_counter_single_dispatch_witness :
    (omp_node_run 2 [1, 0]).2 = ([1, 0] : List Nat).getLast?.toList ∧
    (omp_node_run 2 [1, 0]).2.length = 1 ∧
    (omp_node_run 2 [1, 0]).1 = 0 :=
  c9_atomic_counter_single_dispatch 2 [1, 0] (by decide) (by decide)

/-!
## Sequential graph executor (include/RAJA/policy/loop/graph/DAG.hpp)
`DAGExec<loop_graph, GraphResource>::exec` runs the node executions
collected in `m_node_execs` one at a time, each to completion, in the
order the constructor collected them. -/

/-- The immutable DAG: nodes `0 .. n-1` and directed dependency edges
(predecessor, successor), fixed at graph-build time. -/
structure DirGraph where
  n : Nat
  edges : List (Nat × Nat)
deriving Repr, DecidableEq

/-- The predecessors of node `v`: the sources of the edges into `v`. -/
def preds (g : DirGraph) (v : Nat) : List Nat :=
  (g.edges.filter (fun e => e.2 == v)).map Prod.fst

/-- Modelled from the spec: `DAG::forward_traverse`
(`RAJA/pattern/graph/DAG.hpp` is not among the sources) enumerates the
nodes of the immutable DAG so that every node is listed after all of its
predecessors — "a precomputed topological order". The next node scheduled
is an unscheduled node all of whose predecessors are already scheduled. -/
def pickReady (g : DirGraph) (done : List Nat) : Option Nat :=
  (List.range g.n).find?
    (fun v => !done.contains v && (preds g v).all (fun u => done.contains u))

def topoAux (g : DirGraph) : Nat → List Nat → List Nat
  | 0, done => done
  | fuel + 1, done =>
    match pickReady g done with
    | none => done
    | some v => topoAux g fuel (done ++ [v])

/-- The order in which `DAGExec<loop_graph>`'s constructor collects the
nodes into `m_node_execs`. -/
def topo_order (g : DirGraph) : List Nat := topoAux g g.n []

/-- The execution trace of `exec`: the nodes run one at a time, each
completing before the next starts, in the precomputed order. -/
def seq_exec_trace (g : DirGraph) : List Nat := topo_order g

/-- The scheduling invariant: the scheduled prefix is duplicate-free, lies
in the node range, and lists every scheduled node after all its scheduled
predecessors (for any edge whose target is scheduled, its source is
scheduled earlier). -/
def TopoInv (g : DirGraph) (done : List Nat) : Prop :=
  done.Nodup ∧ (∀ v ∈ done, v < g.n) ∧
  (∀ e ∈ g.edges, e.2 ∈ done →
    e.1 ∈ done ∧ done.indexOf e.1 < done.indexOf e.2)

theorem indexOf_append_self {a : Nat} :
    ∀ (l : List Nat), a ∉ l → (l ++ [a]).indexOf a = l.length := by
  intro l
  induction l with
  | nil => intro _; simp
  | cons b t ih =>
    intro h
    have hba : b ≠ a := fun heq => h (by simp [heq])
    rw [List.cons_append, List.indexOf_cons_ne _ hba,
      ih (fun ha => h (by simp [ha])), List.length_cons]

theorem pickReady_spec {g : DirGraph} {done : List Nat} {v : Nat}
    (h : pickReady g done = some v) :
    v < g.n ∧ v ∉ done ∧ ∀ u ∈ preds g v, u ∈ done := by
  have hp := List.find?_some h
  have hv := List.mem_range.mp (List.mem_of_find?_eq_some h)
  simp at hp
  exact ⟨hv, hp.1, hp.2⟩

theorem topoInv_step {g : DirGraph} {done : List Nat} {v : Nat}
    (hInv : TopoInv g done) (h : pickReady g done = some v) :
    TopoInv g (done ++ [v]) := by
  obtain ⟨hvn, hvd, hready⟩ := pickReady_spec h
  obtain ⟨hnd, hlt, hedge⟩ := hInv
  refine ⟨?_, ?_, ?_⟩
  · rw [List.nodup_append]
    exact ⟨hnd, List.nodup_singleton v,
      fun a ha hb => hvd ((List.mem_singleton.mp hb) ▸ ha)⟩
  · intro w hw
    rcases List.mem_append.mp hw with hw' | hw'
    · exact hlt w hw'
    · rw [List.mem_singleton.mp hw']
      exact hvn
  · intro e he h2mem
    rcases List.mem_append.mp h2mem with h2d | h2v
    · obtain ⟨h1d, hidx⟩ := hedge e he h2d
      exact ⟨List.mem_append.mpr (Or.inl h1d),
        by rw [List.indexOf_append_of_mem h1d,
               List.indexOf_append_of_mem h2d]; exact hidx⟩
    · have h2 : e.2 = v := List.mem_singleton.mp h2v
      have h1p : e.1 ∈ preds g v :=
        List.mem_map.mpr ⟨e, List.mem_filter.mpr ⟨he, by simp [h2]⟩, rfl⟩
      have h1d : e.1 ∈ done := hready _ h1p
      refine ⟨List.mem_append.mpr (Or.inl h1d), ?_⟩
      rw [List.indexOf_append_of_mem h1d, h2, indexOf_append_self done hvd]
      exact List.indexOf_lt_length.mpr h1d

theorem length_le_of_topoInv {g : DirGraph} {done : List Nat}
    (hInv : TopoInv g done) : done.length ≤ g.n := by
  have hsub : done ⊆ List.range g.n :=
    fun v hv => List.mem_range.mpr (hInv.2.1 v hv)
  have := (List.Nodup.subperm hInv.1 hsub).length_le
  simpa using this

theorem mem_of_complete {g : DirGraph} {done : List Nat}
    (hInv : TopoInv g done) (hlen : done.length = g.n) :
    ∀ v < g.n, v ∈ done := by
  have hsub : done ⊆ List.range g.n :=
    fun v hv => List.mem_range.mpr (hInv.2.1 v hv)
  have hperm := (List.Nodup.subperm hInv.1 hsub).perm_of_length_le
    (by simp [hlen])
  intro v hv
  exact hperm.mem_iff.mpr (List.mem_range.mpr hv)

theorem pickReady_some_of_incomplete {g : DirGraph} {done : List Nat}
    (rank : Nat → Nat)
    (hwf : ∀ e ∈ g.edges, e.1 < g.n ∧ e.2 < g.n)
    (hrank : ∀ e ∈ g.edges, rank e.1 < rank e.2)
    (_hInv : TopoInv g done) (hlen : done.length < g.n) :
    ∃ v, pickReady g done = some v := by
  have hSne : (List.range g.n).filter (fun v => !done.contains v) ≠ [] := by
    intro hnil
    have hsub : List.range g.n ⊆ done := by
      intro v hv
      by_contra hvd
      have hvS : v ∈ (List.range g.n).filter (fun v => !done.contains v) :=
        List.mem_filter.mpr ⟨hv, by simp [hvd]⟩
      rw [hnil] at hvS
      cases hvS
    have hle := (List.Nodup.subperm (List.nodup_range g.n) hsub).length_le
    rw [List.length_range] at hle
    omega
  have hargmin :
      ((List.range g.n).filter (fun v => !done.contains v)).argmin rank ≠
        none :=
    fun hnone => hSne (List.argmin_eq_none.mp hnone)
  obtain ⟨m, hm⟩ := Option.ne_none_iff_exists'.mp hargmin
  have hmS := List.argmin_mem hm
  have hmr := List.mem_filter.mp hmS
  have hmd : m ∉ done := by simpa using hmr.2
  have hready : ∀ u ∈ preds g m, u ∈ done := by
    intro u hu
    obtain ⟨e, heF, heu⟩ := List.mem_map.mp hu
    have heE := (List.mem_filter.mp heF).1
    have hem : e.2 = m := by
      have := (List.mem_filter.mp heF).2
      simpa using this
    have hrk : rank u < rank m := by
      have := hrank e heE
      rw [heu, hem] at this
      exact this
    by_contra hud
    have hun : u < g.n := by
      rw [← heu]
      exact (hwf e heE).1
    have huS : u ∈ (List.range g.n).filter (fun v => !done.contains v) :=
      List.mem_filter.mpr ⟨List.mem_range.mpr hun, by simp [hud]⟩
    have := List.le_of_mem_argmin huS hm
    omega
  have hsome : (pickReady g done).isSome := by
    rw [pickReady, List.find?_isSome]
    refine ⟨m, hmr.1, ?_⟩
    simp only [Bool.and_eq_true, Bool.not_eq_true', List.all_eq_true]
    constructor
    · simpa using hmd
    · intro u hu
      simpa using hready u hu
  exact Option.isSome_iff_exists.mp hsome

theorem topoAux_spec (g : DirGraph) (rank : Nat → Nat)
    (hwf : ∀ e ∈ g.edges, e.1 < g.n ∧ e.2 < g.n)
    (hrank : ∀ e ∈ g.edges, rank e.1 < rank e.2) :
    ∀ (fuel : Nat) (done : List Nat), TopoInv g done →
      g.n ≤ done.length + fuel →
      TopoInv g (topoAux g fuel done) ∧
      (topoAux g fuel done).length = g.n := by
  intro fuel
  induction fuel with
  | zero =>
    intro done hInv hle
    have hlelen := length_le_of_topoInv hInv
    simp only [topoAux]
    exact ⟨hInv, by omega⟩
  | succ fuel ih =>
    intro done hInv hle
    rcases Nat.lt_or_ge done.length g.n with hlt | hge
    · obtain ⟨v, hv⟩ :=
        pickReady_some_of_incomplete rank hwf hrank hInv hlt
      rw [topoAux, hv]
      exact ih (done ++ [v]) (topoInv_step hInv hv)
        (by simp only [List.length_append, List.length_singleton]; omega)
    · have hlen : done.length = g.n :=
        Nat.le_antisymm (length_le_of_topoInv hInv) hge
      have hnone : pickReady g done = none := by
        rw [pickReady]
        apply List.find?_eq_none.mpr
        intro v hvr
        simp [mem_of_complete hInv hlen v (List.mem_range.mp hvr)]
      rw [topoAux, hnone]
      exact ⟨hInv, hlen⟩

/-- C8: given the immutable DAG (well-formed edges and an acyclicity
ranking), the sequential executor runs the nodes one at a time in the
precomputed topological order: its trace executes every node exactly once,
and for every dependency edge the predecessor's (completed) execution
precedes the successor's start. -/
theorem c8_sequential_executor_topological (g : DirGraph)
    (rank : Nat → Nat)
    (hwf : ∀ e ∈ g.edges, e.1 < g.n ∧ e.2 < g.n)
    (hrank : ∀ e ∈ g.edges, rank e.1 < rank e.2) :
    (∀ v, v < g.n → (seq_exec_trace g).count v = 1) ∧
    (∀ e ∈ g.edges,
      (seq_exec_trace g).indexOf e.1 < (seq_exec_trace g).indexOf e.2) := by
  have hstart : TopoInv g [] := by
    refine ⟨List.nodup_nil, ?_, ?_⟩
    · intro v hv
      cases hv
    · intro e he h2
      cases h2
  obtain ⟨hInv, hlen⟩ :=
    topoAux_spec g rank hwf hrank g.n [] hstart (by simp)
  constructor
  · intro v hv
    exact List.count_eq_one_of_mem hInv.1
      (mem_of_complete hInv hlen v hv)
  · intro e he
    have h2mem : e.2 ∈ topoAux g g.n [] :=
      mem_of_complete hInv hlen e.2 (hwf e he).2
    exact (hInv.2.2 e he h2mem).2

/-- Witness for the C8 theorem: the diamond-entry DAG with nodes 0, 1, 2
and edges 0 → 2 and 1 → 2, ranked by the identity. -/
theorem c8_sequential_executor_topological_witness :
    (∀ v, v < (DirGraph.mk 3 [(0, 2), (1, 2)]).n →
      (seq_exec_trace (DirGraph.mk 3 [(0, 2), (1, 2)])).count v = 1) ∧
    (∀ e ∈ (DirGraph.mk 3 [(0, 2), (1, 2)]).edges,
      (seq_exec_trace (DirGraph.mk 3 [(0, 2), (1, 2)])).indexOf e.1 <
        (seq_exec_trace (DirGraph.mk 3 [(0, 2), (1, 2)])).indexOf e.2) :=
  c8_sequential_executor_topological (DirGraph.mk 3 [(0, 2), (1, 2)])
    (fun v => v) (by decide) (by decide)
